import Mathlib

/-!
Shallow embedding of the yoink crawler's core modules (src/url.rs,
src/queue.rs, src/journal.rs, src/encoding.rs), together with proofs
about them.

Modelling conventions: Rust string slices are `List Char`; `HashSet` is
`Finset` (iteration order of a `HashSet` is unspecified, so any list
collected from one is modelled by the underlying finite set); `VecDeque`
is a `List` whose head is the front; bytes (`u8`) are `Nat` carrying the
side condition `< 256` where it matters; fallible functions return
`Except`.  All shifts and masks in encoding.rs act on `u32` values below
`2 ^ 24`, so they are exact and are written as division / remainder.
-/

namespace Yoink

/-- Rust `str::split_once(pat)`: split at the first occurrence of `pat`,
returning the parts strictly before and strictly after it, or `none`
when `pat` does not occur. -/
def splitOnce (pat : List Char) : List Char → Option (List Char × List Char)
  | [] => if pat.isPrefixOf ([] : List Char) then some ([], []) else none
  | c :: rest =>
    if pat.isPrefixOf (c :: rest) then some ([], (c :: rest).drop pat.length)
    else
      match splitOnce pat rest with
      | some (l, r) => some (c :: l, r)
      | none => none

/-- Rust `str::trim_end_matches(ch)`: remove every trailing occurrence of `ch`. -/
def trimEndMatches (ch : Char) (s : List Char) : List Char :=
  (s.reverse.dropWhile (fun c => c == ch)).reverse

/-- src/url.rs: `enum UrlError`. -/
inductive UrlError
  | MissingScheme
  | InvalidScheme
  | MissingHost
  | UnexpectedFormat
  | DifferentSchemeOrHost
deriving DecidableEq, Repr

/-- src/url.rs: `enum UrlScheme`. -/
inductive UrlScheme
  | HTTP
  | HTTPS
deriving DecidableEq, Repr

/-- src/url.rs: `impl TryFrom<&str> for UrlScheme`. -/
def UrlScheme.tryFrom (value : List Char) : Except UrlError UrlScheme :=
  if value = "http".toList then .ok .HTTP
  else if value = "https".toList then .ok .HTTPS
  else .error .InvalidScheme

/-- src/url.rs: `struct Url`. -/
structure Url where
  scheme : UrlScheme
  host : List Char
  path : Option (List Char)
deriving DecidableEq, Repr

/-- src/url.rs: `Url::new`. -/
def Url.new (scheme : UrlScheme) (host : List Char) (path : Option (List Char)) : Url :=
  ⟨scheme, host, path⟩

/-- src/url.rs `Url::from_str`, lines 87-91: drop everything from the
first `#` on, then drop trailing slashes. -/
def stripPath (path : List Char) : List Char :=
  trimEndMatches '/'
    (match splitOnce ['#'] path with
     | some (withoutFragments, _) => withoutFragments
     | none => path)

/-- src/url.rs `Url::from_str`, lines 77-97: the part of the parse
after `"://"` has been split off and the scheme validated (`rest` is
everything that follows `"://"`). -/
def Url.parseRest (scheme : UrlScheme) (rest : List Char) : Except UrlError Url :=
  match splitOnce ['/'] rest with
  | some (h, []) => .ok (Url.new scheme h none)
  | some (host, path0) =>
    if host = [] then .error .MissingHost
    else
      let path2 := stripPath path0
      if path2 = [] then .ok (Url.new scheme host none)
      else .ok (Url.new scheme host (some path2))
  | none => .ok (Url.new scheme rest none)

/-- src/url.rs: `impl FromStr for Url` (`Url::from_str`). -/
def Url.fromStr (value : List Char) : Except UrlError Url :=
  match splitOnce "://".toList value with
  | none => .error .MissingScheme
  | some (schemeStr, rest) =>
    match UrlScheme.tryFrom schemeStr with
    | .error e => .error e
    | .ok scheme => Url.parseRest scheme rest

/-- src/url.rs: `Url::new_with_base`. -/
def Url.newWithBase (base_url : Url) (url_or_path : List Char) : Except UrlError Url :=
  if ("http://".toList).isPrefixOf url_or_path ∨ ("https://".toList).isPrefixOf url_or_path then
    match Url.fromStr url_or_path with
    | .ok url =>
      if url.scheme ≠ base_url.scheme ∨ url.host ≠ base_url.host then
        .error .DifferentSchemeOrHost
      else .ok url
    | .error e => .error e
  else if (['/']).isPrefixOf url_or_path then
    let path :=
      if url_or_path = ['/'] then none
      else some (url_or_path.dropWhile (fun c => c == '/'))
    .ok (Url.new base_url.scheme base_url.host path)
  else .error .UnexpectedFormat

/-- src/queue.rs: `struct Queue`.  `pending` is the `VecDeque` (head =
front), the four `HashSet`s are `Finset`s. -/
structure Queue where
  pending : List Url
  pending_set : Finset Url
  processing : Finset Url
  processed : Finset Url
  failed : Finset Url
deriving DecidableEq

/-- src/queue.rs: `Queue::add_pending`. -/
def Queue.add_pending (q : Queue) (url : Url) : Queue :=
  if url ∉ q.pending_set ∧ url ∉ q.processed ∧ url ∉ q.processing then
    { q with
        pending := q.pending ++ [url]
        pending_set := insert url q.pending_set }
  else q

/-- src/queue.rs: `Queue::next`, returning the dequeued element (if any)
together with the updated queue. -/
def Queue.next (q : Queue) : Option Url × Queue :=
  match q.pending with
  | [] => (none, q)
  | url :: rest =>
    (some url,
      { q with
          pending := rest
          pending_set := q.pending_set.erase url
          processing := insert url q.processing })

/-- src/queue.rs: `Queue::mark_as_processed`. -/
def Queue.mark_as_processed (q : Queue) (url : Url) : Queue :=
  { q with
      processing := q.processing.erase url
      processed := insert url q.processed }

/-- src/queue.rs: `Queue::mark_as_failed`. -/
def Queue.mark_as_failed (q : Queue) (url : Url) : Queue :=
  { q with
      processing := q.processing.erase url
      failed := insert url q.failed }

/-- src/queue.rs: `Queue::new_with_initial`: seed the fields from the
given vectors (`collect` into a `HashSet` keeps exactly the set of
elements), then `add_pending` the base URL. -/
def Queue.new_with_initial
    (base_url : Url) (pending processing processed failed : List Url) : Queue :=
  Queue.add_pending
    { pending := pending
      pending_set := pending.toFinset
      processing := processing.toFinset
      processed := processed.toFinset
      failed := failed.toFinset } base_url

/-- src/journal.rs: `enum JournalEntry`. -/
inductive JournalEntry
  | Pending (url : Url)
  | Processing (url : Url)
  | Processed (url : Url)
  | Failed (url : Url)
deriving DecidableEq, Repr

/-- The accumulator of `Journal::load_history`'s line loop:
`maybe_pending` is the `Vec` (duplicates kept, in order), the other
three are the `HashSet`s. -/
structure JAcc where
  maybe_pending : List Url
  maybe_processing : Finset Url
  processed : Finset Url
  failed : Finset Url

/-- One iteration of the `for line in reader.lines()` loop of
`Journal::load_history`, given the successfully parsed entry. -/
def JAcc.step (a : JAcc) : JournalEntry → JAcc
  | .Pending url => { a with maybe_pending := a.maybe_pending ++ [url] }
  | .Processing url => { a with maybe_processing := insert url a.maybe_processing }
  | .Processed url => { a with processed := insert url a.processed }
  | .Failed url => { a with failed := insert url a.failed }

/-- src/journal.rs: `struct JournalHistory`.  The `pending` vector has a
source-determined order; the other three vectors are collected from
`HashSet`s, whose iteration order is unspecified, so they are modelled
as the sets of their elements. -/
structure JournalHistory where
  pending : List Url
  processing : Finset Url
  processed : Finset Url
  failed : Finset Url
deriving DecidableEq

/-- src/journal.rs: `Journal::load_history`, applied to the list of
entries parsed from the journal file (file I/O and the line parser are
outside the model; malformed lines are skipped by the source and so
simply never reach this list). -/
def Journal.load_history (entries : List JournalEntry) : JournalHistory :=
  let a := entries.foldl JAcc.step ⟨[], ∅, ∅, ∅⟩
  { pending := a.maybe_pending.filter
      (fun entry =>
        decide (entry ∉ a.maybe_processing ∧ entry ∉ a.processed ∧ entry ∉ a.failed))
    processing := a.maybe_processing.filter
      (fun entry => entry ∉ a.processed ∧ entry ∉ a.failed)
    processed := a.processed
    failed := a.failed }

/-- src/encoding.rs: `BASE64_TABLE`. -/
def BASE64_TABLE : List Char :=
  "ABCDEFGHIJKLMNOPQRSTUVWXYZabcdefghijklmnopqrstuvwxyz0123456789+/".toList

/-- Indexing `BASE64_TABLE[v]`; every use in the source masks the index
with `& 0x3F`, so `v < 64` and the default is never taken. -/
def b64char (v : Nat) : Char := BASE64_TABLE.getD v 'A'

/-- src/encoding.rs: `base64_encode`.  The `while` loop consumes three
bytes per step; the trailing `match` handles the remainder. -/
def base64_encode : List Nat → List Char
  | b0 :: b1 :: b2 :: rest =>
    let v := b0 * 65536 + b1 * 256 + b2
    b64char (v / 262144 % 64) :: b64char (v / 4096 % 64) ::
      b64char (v / 64 % 64) :: b64char (v % 64) :: base64_encode rest
  | [b0] =>
    let v := b0 * 65536
    [b64char (v / 262144 % 64), b64char (v / 4096 % 64), '=', '=']
  | [b0, b1] =>
    let v := b0 * 65536 + b1 * 256
    [b64char (v / 262144 % 64), b64char (v / 4096 % 64), b64char (v / 64 % 64), '=']
  | [] => []

/-- src/encoding.rs: `enum DecodeError`. -/
inductive DecodeError
  | InvalidLength
  | InvalidCharacter (ch : Char) (index : Nat)
  | InvalidPadding
deriving DecidableEq, Repr

/-- src/encoding.rs: `val_from_base64_char`. -/
def val_from_base64_char (c : Char) : Option Nat :=
  if 'A' ≤ c ∧ c ≤ 'Z' then some (c.toNat - 'A'.toNat)
  else if 'a' ≤ c ∧ c ≤ 'z' then some (c.toNat - 'a'.toNat + 26)
  else if '0' ≤ c ∧ c ≤ '9' then some (c.toNat - '0'.toNat + 52)
  else if c = '+' then some 62
  else if c = '/' then some 63
  else none

/-- Rust `char::is_ascii_whitespace`: space, horizontal tab, line feed,
form feed, carriage return. -/
def isAsciiWhitespace (c : Char) : Bool :=
  c == ' ' || c == '\t' || c == '\n' || c == Char.ofNat 12 || c == '\r'

/-- The per-character step of `base64_decode`'s inner `for j in 0..4`
loop: `=` contributes `0`, otherwise `val_from_base64_char`, failing
with the character and its index in the cleaned input. -/
def chunkVal (chunkIdx j : Nat) (c : Char) : Except DecodeError Nat :=
  if c = '=' then .ok 0
  else
    match val_from_base64_char c with
    | some v => .ok v
    | none => .error (.InvalidCharacter c (chunkIdx * 4 + j))

/-- The `for (chunk_idx, chunk) in clean.chunks(4)` loop of
`base64_decode`.  The caller has already checked `clean.len() % 4 == 0`,
so a final short chunk never occurs; that dead branch yields `.ok []`. -/
def decodeChunks (chunkIdx : Nat) : List Char → Except DecodeError (List Nat)
  | c0 :: c1 :: c2 :: c3 :: rest => do
    let v0 ← chunkVal chunkIdx 0 c0
    let v1 ← chunkVal chunkIdx 1 c1
    let v2 ← chunkVal chunkIdx 2 c2
    let v3 ← chunkVal chunkIdx 3 c3
    let combined := v0 * 262144 + v1 * 4096 + v2 * 64 + v3
    let tail ← decodeChunks (chunkIdx + 1) rest
    let mid := if c2 ≠ '=' then [combined / 256 % 256] else []
    let last := if c3 ≠ '=' then [combined % 256] else []
    pure (combined / 65536 % 256 :: (mid ++ (last ++ tail)))
  | _ :: _ => .ok []
  | [] => .ok []

/-- src/encoding.rs: `base64_decode`. -/
def base64_decode (input : List Char) : Except DecodeError (List Nat) :=
  let clean := input.filter (fun c => !(isAsciiWhitespace c))
  if clean = [] then .ok []
  else if clean.length % 4 ≠ 0 then .error .InvalidLength
  else
    let pad := (clean.reverse.takeWhile (fun c => c == '=')).length
    if pad > 2 then .error .InvalidPadding
    else if '=' ∈ clean.take (clean.length - pad) then .error .InvalidPadding
    else decodeChunks 0 clean

/-! ## Derived definitions used only in statements -/

/-- `Queue::next` called `n` times in a row, collecting the URLs it
returns (stopping early if it returns `None`). -/
def Queue.drainN : Nat → Queue → List Url
  | 0, _ => []
  | n + 1, q =>
    match q.next with
    | (some u, q2) => u :: Queue.drainN n q2
    | (none, _) => []

/-- The `url` carried by a `Pending` journal entry, if any. -/
def JournalEntry.pendingUrl : JournalEntry → Option Url
  | .Pending url => some url
  | _ => none

/-- `Queue::new_with_initial` applied to the vectors of a
`JournalHistory` (startup seeding).  Collecting a vector drawn from a
`HashSet` back into a `HashSet` yields the same set of elements, so the
three set-valued fields transfer directly. -/
def Queue.new_from_history (base_url : Url) (h : JournalHistory) : Queue :=
  Queue.add_pending
    { pending := h.pending
      pending_set := h.pending.toFinset
      processing := h.processing
      processed := h.processed
      failed := h.failed } base_url

/-- Spec §3: a stored path is canonical when it is nonempty, contains no
fragment marker `#` and has no trailing slash; an absent path is
canonical. -/
def canonicalPath : Option (List Char) → Prop
  | none => True
  | some p => p ≠ [] ∧ '#' ∉ p ∧ p.getLast? ≠ some '/'

instance (p : Option (List Char)) : Decidable (canonicalPath p) := by
  cases p <;> unfold canonicalPath <;> infer_instance

/-! ## Queue: the three-set exclusivity invariant -/

/-- Well-formedness of a `Queue`: the pending deque is duplicate-free
and carries exactly the members of the pending set, and every URL lies
in at most one of `pending_set`, `processing`, `processed`.  (The
`failed` set is deliberately absent: `add_pending` never removes a URL
from `failed`, so `failed` can overlap the other three.) -/
def Queue.Wf (q : Queue) : Prop :=
  q.pending.Nodup ∧ q.pending.toFinset = q.pending_set ∧
    (∀ u ∈ q.pending_set, u ∉ q.processing ∧ u ∉ q.processed) ∧
    (∀ u ∈ q.processing, u ∉ q.processed)

instance (q : Queue) : Decidable q.Wf := by
  unfold Queue.Wf
  infer_instance

theorem Queue.wf_add_pending (q : Queue) (u : Url) (h : q.Wf) : (q.add_pending u).Wf := by
  obtain ⟨h1, h2, h3, h4⟩ := h
  unfold Queue.add_pending
  split
  · rename_i hc
    obtain ⟨hp, hd, hr⟩ := hc
    have hupending : u ∉ q.pending := fun hm => hp (h2 ▸ List.mem_toFinset.mpr hm)
    refine ⟨?_, ?_, ?_, h4⟩
    · simp [List.nodup_append, h1, hupending]
    · ext x
      simp only [List.toFinset_append, Finset.mem_union, List.mem_toFinset,
        List.mem_singleton, Finset.mem_insert, List.toFinset_cons, List.toFinset_nil,
        Finset.mem_singleton, insert_emptyc_eq]
      constructor
      · rintro (hx | hx)
        · exact Or.inr (h2 ▸ List.mem_toFinset.mpr hx)
        · exact Or.inl hx
      · rintro (hx | hx)
        · exact Or.inr hx
        · exact Or.inl (List.mem_toFinset.mp (h2 ▸ hx))
    · intro x hx
      rcases Finset.mem_insert.mp hx with hx | hx
      · subst hx
        exact ⟨hr, hd⟩
      · exact h3 x hx
  · exact ⟨h1, h2, h3, h4⟩

theorem Queue.wf_next (q : Queue) (h : q.Wf) : (q.next).2.Wf := by
  obtain ⟨h1, h2, h3, h4⟩ := h
  unfold Queue.next
  split
  · exact ⟨h1, h2, h3, h4⟩
  · rename_i url rest heq
    have hnd := heq ▸ h1
    have hurl : url ∈ q.pending_set := h2 ▸ List.mem_toFinset.mpr (heq ▸ List.mem_cons_self url rest)
    refine ⟨(List.nodup_cons.mp hnd).2, ?_, ?_, ?_⟩
    · ext x
      simp only [List.mem_toFinset, Finset.mem_erase]
      constructor
      · intro hx
        refine ⟨fun hxe => (List.nodup_cons.mp hnd).1 (hxe ▸ hx), ?_⟩
        exact h2 ▸ List.mem_toFinset.mpr (heq ▸ List.mem_cons_of_mem url hx)
      · rintro ⟨hne, hx⟩
        have := heq ▸ List.mem_toFinset.mp (h2 ▸ hx)
        rcases List.mem_cons.mp this with hx' | hx'
        · exact absurd hx' hne
        · exact hx'
    · intro x hx
      obtain ⟨hne, hxp⟩ := Finset.mem_erase.mp hx
      refine ⟨?_, (h3 x hxp).2⟩
      intro hxi
      rcases Finset.mem_insert.mp hxi with hxi | hxi
      · exact hne hxi
      · exact (h3 x hxp).1 hxi
    · intro x hx
      rcases Finset.mem_insert.mp hx with hx | hx
      · exact hx ▸ (h3 url hurl).2
      · exact h4 x hx

theorem Queue.wf_mark_as_processed (q : Queue) (u : Url) (h : q.Wf)
    (hu : u ∈ q.processing) : (q.mark_as_processed u).Wf := by
  obtain ⟨h1, h2, h3, h4⟩ := h
  refine ⟨h1, h2, ?_, ?_⟩
  · intro x hx
    obtain ⟨hxr, hxd⟩ := h3 x hx
    refine ⟨fun hxe => hxr (Finset.mem_of_mem_erase hxe), ?_⟩
    intro hxi
    rcases Finset.mem_insert.mp hxi with hxi | hxi
    · exact hxr (hxi ▸ hu)
    · exact hxd hxi
  · intro x hx
    obtain ⟨hne, hxr⟩ := Finset.mem_erase.mp hx
    intro hxi
    rcases Finset.mem_insert.mp hxi with hxi | hxi
    · exact hne hxi
    · exact h4 x hxr hxi

theorem Queue.wf_mark_as_failed (q : Queue) (u : Url) (h : q.Wf)
    (_hu : u ∈ q.processing) : (q.mark_as_failed u).Wf := by
  obtain ⟨h1, h2, h3, h4⟩ := h
  refine ⟨h1, h2, ?_, ?_⟩
  · intro x hx
    obtain ⟨hxr, hxd⟩ := h3 x hx
    exact ⟨fun hxe => hxr (Finset.mem_of_mem_erase hxe), hxd⟩
  · intro x hx
    exact h4 x (Finset.mem_of_mem_erase hx)

theorem Queue.wf_new_with_initial (base_url : Url)
    (pending processing processed failed : List Url)
    (hnd : pending.Nodup)
    (hpr : ∀ u ∈ pending, u ∉ processing)
    (hpd : ∀ u ∈ pending, u ∉ processed)
    (hrd : ∀ u ∈ processing, u ∉ processed) :
    (Queue.new_with_initial base_url pending processing processed failed).Wf := by
  apply Queue.wf_add_pending
  refine ⟨hnd, rfl, ?_, ?_⟩
  · intro u hu
    have hm := List.mem_toFinset.mp hu
    exact ⟨fun hc => hpr u hm (List.mem_toFinset.mp hc),
      fun hc => hpd u hm (List.mem_toFinset.mp hc)⟩
  · intro u hu hc
    exact hrd u (List.mem_toFinset.mp hu) (List.mem_toFinset.mp hc)

/-- C1: the claim as stated is false.  Starting from a fresh queue on
base URL `http://a`, the operation sequence `next`, `mark_as_failed`,
`add_pending` (the claim's own "in particular" case of re-adding a
failed URL) leaves `http://a` a member of both `pending_set` and
`failed` — two of the four sets at once. -/
theorem queue_atMostOne_cex :
    (⟨.HTTP, ['a'], none⟩ : Url) ∈
      ((((Queue.new_with_initial ⟨.HTTP, ['a'], none⟩ [] [] [] []).next).2.mark_as_failed
          ⟨.HTTP, ['a'], none⟩).add_pending ⟨.HTTP, ['a'], none⟩).pending_set ∧
    (⟨.HTTP, ['a'], none⟩ : Url) ∈
      ((((Queue.new_with_initial ⟨.HTTP, ['a'], none⟩ [] [] [] []).next).2.mark_as_failed
          ⟨.HTTP, ['a'], none⟩).add_pending ⟨.HTTP, ['a'], none⟩).failed := by
  decide

/-- C1 (amended): with `failed` excluded, the exclusivity invariant
holds: `Queue.Wf` (pending deque duplicate-free and in sync with
`pending_set`, every URL in at most one of
`pending_set`/`processing`/`processed`) is established by
`new_with_initial` on duplicate-free, pairwise-disjoint seed lists and
preserved by `add_pending`, `next`, and — when the marked URL is
currently in `processing`, the source's intended call discipline — by
`mark_as_processed` and `mark_as_failed`.  (`add_pending` of a URL in
`failed` keeps it in `failed` while pending, and `mark_as_processed` /
`mark_as_failed` of a URL currently in `pending` insert it into a
terminal set while it is still pending, so neither the four-set claim
nor the undisciplined-mark claim holds.) -/
theorem queue_atMostOne_amended :
    (∀ (base_url : Url) (pending processing processed failed : List Url),
        pending.Nodup → (∀ u ∈ pending, u ∉ processing) →
        (∀ u ∈ pending, u ∉ processed) → (∀ u ∈ processing, u ∉ processed) →
        (Queue.new_with_initial base_url pending processing processed failed).Wf) ∧
    (∀ (q : Queue) (u : Url), q.Wf → (q.add_pending u).Wf) ∧
    (∀ q : Queue, q.Wf → (q.next).2.Wf) ∧
    (∀ (q : Queue) (u : Url), q.Wf → u ∈ q.processing → (q.mark_as_processed u).Wf) ∧
    (∀ (q : Queue) (u : Url), q.Wf → u ∈ q.processing → (q.mark_as_failed u).Wf) :=
  ⟨Queue.wf_new_with_initial, Queue.wf_add_pending, Queue.wf_next,
    Queue.wf_mark_as_processed, Queue.wf_mark_as_failed⟩

/-- Witness for the amended C1 theorem at concrete queues. -/
theorem queue_atMostOne_amended_witness :
    (Queue.new_with_initial ⟨.HTTP, ['a'], none⟩ [⟨.HTTP, ['b'], none⟩] [] [] []).Wf ∧
    ((Queue.mk [] ∅ {⟨.HTTP, ['c'], none⟩} ∅ ∅).add_pending ⟨.HTTP, ['a'], none⟩).Wf ∧
    ((Queue.mk [⟨.HTTP, ['a'], none⟩] {⟨.HTTP, ['a'], none⟩} ∅ ∅ ∅).next).2.Wf ∧
    ((Queue.mk [] ∅ {⟨.HTTP, ['c'], none⟩} ∅ ∅).mark_as_processed ⟨.HTTP, ['c'], none⟩).Wf ∧
    ((Queue.mk [] ∅ {⟨.HTTP, ['c'], none⟩} ∅ ∅).mark_as_failed ⟨.HTTP, ['c'], none⟩).Wf :=
  ⟨queue_atMostOne_amended.1 _ _ _ _ _ (by decide) (by decide) (by decide) (by decide),
    queue_atMostOne_amended.2.1 _ _ (by decide),
    queue_atMostOne_amended.2.2.1 _ (by decide),
    queue_atMostOne_amended.2.2.2.1 _ _ (by decide) (by decide),
    queue_atMostOne_amended.2.2.2.2 _ _ (by decide) (by decide)⟩

/-- C2: the claim as stated is false.  On the empty queue, `http://a` is
not in `processing`, yet `mark_as_processed` changes the state: it
inserts the URL into `processed`. -/
theorem queue_mark_noop_cex :
    (⟨.HTTP, ['a'], none⟩ : Url) ∉ (Queue.mk [] ∅ ∅ ∅ ∅).processing ∧
    (Queue.mk [] ∅ ∅ ∅ ∅).mark_as_processed ⟨.HTTP, ['a'], none⟩ ≠ Queue.mk [] ∅ ∅ ∅ ∅ := by
  decide

/-- C2 (amended): when `url` is not in `processing`, `mark_as_processed`
(resp. `mark_as_failed`) leaves `pending`, `pending_set`, `processing`
— and the other terminal set — unchanged and merely inserts `url` into
`processed` (resp. `failed`); it is a complete no-op exactly when `url`
is additionally already a member of that terminal set. -/
theorem queue_mark_noop_amended (q : Queue) (u : Url) (hu : u ∉ q.processing) :
    q.mark_as_processed u = { q with processed := insert u q.processed } ∧
    q.mark_as_failed u = { q with failed := insert u q.failed } ∧
    (u ∈ q.processed → q.mark_as_processed u = q) ∧
    (u ∈ q.failed → q.mark_as_failed u = q) := by
  have he : q.processing.erase u = q.processing := Finset.erase_eq_of_not_mem hu
  refine ⟨?_, ?_, ?_, ?_⟩
  · simp [Queue.mark_as_processed, he]
  · simp [Queue.mark_as_failed, he]
  · intro hd
    have hi : insert u q.processed = q.processed := Finset.insert_eq_self.mpr hd
    cases q
    simp_all [Queue.mark_as_processed]
  · intro hf
    have hi : insert u q.failed = q.failed := Finset.insert_eq_self.mpr hf
    cases q
    simp_all [Queue.mark_as_failed]

/-- Witness for the amended C2 theorem on a concrete queue. -/
theorem queue_mark_noop_amended_witness :
    (Queue.mk [] ∅ ∅ ∅ ∅).mark_as_processed ⟨.HTTP, ['a'], none⟩ =
      { Queue.mk ([] : List Url) ∅ ∅ ∅ ∅ with
          processed := insert ⟨.HTTP, ['a'], none⟩ ∅ } :=
  (queue_mark_noop_amended (Queue.mk [] ∅ ∅ ∅ ∅) ⟨.HTTP, ['a'], none⟩ (by decide)).1

/-- C3: `add_pending` is a no-op when the URL is already in
`pending_set`, `processing` or `processed`; otherwise it appends the URL
to the tail of the pending deque and inserts it into `pending_set`; and
after `mark_as_failed u` (with `u` in no other set) a subsequent
`add_pending u` does re-enqueue `u`. -/
theorem queue_add_pending_spec (q : Queue) (u : Url) :
    ((u ∈ q.pending_set ∨ u ∈ q.processing ∨ u ∈ q.processed) → q.add_pending u = q) ∧
    (u ∉ q.pending_set → u ∉ q.processing → u ∉ q.processed →
      q.add_pending u =
        { q with pending := q.pending ++ [u], pending_set := insert u q.pending_set }) ∧
    (u ∉ q.pending_set → u ∉ q.processed →
      ((q.mark_as_failed u).add_pending u).pending = q.pending ++ [u] ∧
      u ∈ ((q.mark_as_failed u).add_pending u).pending_set ∧
      u ∈ ((q.mark_as_failed u).add_pending u).failed) := by
  refine ⟨?_, ?_, ?_⟩
  · intro h
    unfold Queue.add_pending
    rw [if_neg]
    tauto
  · intro h1 h2 h3
    unfold Queue.add_pending
    rw [if_pos ⟨h1, h3, h2⟩]
  · intro h1 h3
    have hm : (q.mark_as_failed u).pending_set = q.pending_set := rfl
    have hd : (q.mark_as_failed u).processed = q.processed := rfl
    have hr : u ∉ (q.mark_as_failed u).processing := by
      simp [Queue.mark_as_failed]
    unfold Queue.add_pending
    rw [if_pos ⟨hm ▸ h1, hd ▸ h3, hr⟩]
    exact ⟨rfl, Finset.mem_insert_self u _, by simp [Queue.mark_as_failed]⟩

/-- Witness for the C3 theorem on concrete queues. -/
theorem queue_add_pending_spec_witness :
    ((Queue.mk [] ∅ ∅ {⟨.HTTP, ['a'], none⟩} ∅).add_pending ⟨.HTTP, ['a'], none⟩ =
      Queue.mk [] ∅ ∅ {⟨.HTTP, ['a'], none⟩} ∅) ∧
    ((Queue.mk [] ∅ ∅ ∅ ∅).add_pending ⟨.HTTP, ['a'], none⟩ =
      { Queue.mk ([] : List Url) ∅ ∅ ∅ ∅ with
          pending := [] ++ [⟨.HTTP, ['a'], none⟩]
          pending_set := insert ⟨.HTTP, ['a'], none⟩ ∅ }) ∧
    (((Queue.mk [] ∅ ∅ ∅ ∅).mark_as_failed ⟨.HTTP, ['a'], none⟩).add_pending
        ⟨.HTTP, ['a'], none⟩).pending = [] ++ [⟨.HTTP, ['a'], none⟩] :=
  ⟨(queue_add_pending_spec (Queue.mk [] ∅ ∅ {⟨.HTTP, ['a'], none⟩} ∅) ⟨.HTTP, ['a'], none⟩).1
      (Or.inr (Or.inr (by decide))),
    (queue_add_pending_spec (Queue.mk [] ∅ ∅ ∅ ∅) ⟨.HTTP, ['a'], none⟩).2.1
      (by decide) (by decide) (by decide),
    ((queue_add_pending_spec (Queue.mk [] ∅ ∅ ∅ ∅) ⟨.HTTP, ['a'], none⟩).2.2
      (by decide) (by decide)).1⟩

/-! ## String-splitting helper lemmas -/

theorem splitOnce_eq_none_iff (pat s : List Char) :
    splitOnce pat s = none ↔ ∀ l r : List Char, s ≠ l ++ (pat ++ r) := by
  induction s with
  | nil =>
    unfold splitOnce
    by_cases hp : pat.isPrefixOf ([] : List Char)
    · rw [if_pos hp]
      have hpe : pat = [] := List.prefix_nil.mp (List.isPrefixOf_iff_prefix.mp hp)
      exact iff_of_false (by simp) (fun hall => hall [] [] (by simp [hpe]))
    · rw [if_neg hp]
      apply iff_of_true rfl
      intro l r he
      have hl : l = [] ∧ pat = [] ∧ r = [] := by
        have := he.symm
        simpa [List.append_eq_nil] using this
      rw [hl.2.1] at hp
      exact hp (List.isPrefixOf_iff_prefix.mpr List.nil_prefix)
  | cons c rest ih =>
    unfold splitOnce
    by_cases hp : pat.isPrefixOf (c :: rest)
    · rw [if_pos hp]
      apply iff_of_false (by simp)
      intro hall
      obtain ⟨t, ht⟩ := List.isPrefixOf_iff_prefix.mp hp
      exact hall [] t (by rw [List.nil_append, ht])
    · rw [if_neg hp]
      cases hsp : splitOnce pat rest with
      | some pr =>
        apply iff_of_false (by simp)
        intro hall
        have hne : splitOnce pat rest ≠ none := by rw [hsp]; simp
        have hex : ¬∀ l r : List Char, rest ≠ l ++ (pat ++ r) := fun hal => hne (ih.mpr hal)
        push_neg at hex
        obtain ⟨l, r, hlr⟩ := hex
        exact hall (c :: l) r (by rw [List.cons_append, ← hlr])
      | none =>
        apply iff_of_true rfl
        intro l r he
        cases l with
        | nil =>
          rw [List.nil_append] at he
          exact hp (List.isPrefixOf_iff_prefix.mpr ⟨r, he.symm⟩)
        | cons c2 l2 =>
          have h2 : rest = l2 ++ (pat ++ r) := by
            rw [List.cons_append] at he
            exact (List.cons_eq_cons.mp he).2
          exact (ih.mp hsp) l2 r h2

theorem splitOnce_single_fst_not_mem (ch : Char) (s l r : List Char)
    (h : splitOnce [ch] s = some (l, r)) : ch ∉ l := by
  induction s generalizing l r with
  | nil => simp [splitOnce] at h
  | cons c rest ih =>
    unfold splitOnce at h
    by_cases hp : ([ch]).isPrefixOf (c :: rest)
    · rw [if_pos hp] at h
      obtain ⟨he, -⟩ := Prod.mk.injEq .. ▸ (Option.some.injEq .. ▸ h)
      rw [← he]
      simp
    · rw [if_neg hp] at h
      have hc : ¬(ch = c) := by
        intro he
        exact hp (by simp [List.isPrefixOf, he])
      cases hsp : splitOnce [ch] rest with
      | some pr =>
        rw [hsp] at h
        obtain ⟨l2, r2⟩ := pr
        simp only [Option.some.injEq, Prod.mk.injEq] at h
        rw [← h.1]
        intro hm
        rcases List.mem_cons.mp hm with hm | hm
        · exact hc hm
        · exact ih l2 r (by rw [hsp, h.2]) hm
      | none => rw [hsp] at h; cases h

theorem splitOnce_single_none_not_mem (ch : Char) (s : List Char)
    (h : splitOnce [ch] s = none) : ch ∉ s := by
  intro hm
  obtain ⟨l, r, hlr⟩ := List.append_of_mem hm
  exact (splitOnce_eq_none_iff [ch] s).mp h l r (by rw [hlr]; simp)

theorem head?_dropWhile (p : Char → Bool) (t : List Char) (a : Char)
    (h : (t.dropWhile p).head? = some a) : p a = false := by
  induction t with
  | nil => simp [List.dropWhile] at h
  | cons c rest ih =>
    rw [List.dropWhile_cons] at h
    by_cases hc : p c
    · rw [if_pos hc] at h
      exact ih h
    · rw [if_neg hc] at h
      simp only [List.head?_cons, Option.some.injEq] at h
      rw [← h]
      exact Bool.eq_false_iff.mpr hc

theorem trimEndMatches_getLast? (ch : Char) (s : List Char) :
    (trimEndMatches ch s).getLast? ≠ some ch := by
  unfold trimEndMatches
  rw [List.getLast?_reverse]
  intro h
  have := head?_dropWhile (fun c => c == ch) s.reverse ch h
  simp at this

theorem trimEndMatches_subset (ch : Char) (s : List Char) :
    ∀ x ∈ trimEndMatches ch s, x ∈ s := by
  intro x hx
  unfold trimEndMatches at hx
  rw [List.mem_reverse] at hx
  have := (List.dropWhile_sublist (l := s.reverse) (fun c => c == ch)).subset hx
  exact List.mem_reverse.mp this

/-! ## Url parsing lemmas -/

theorem tryFrom_error_iff (v : List Char) (e : UrlError) :
    UrlScheme.tryFrom v = .error e ↔
      (e = .InvalidScheme ∧ v ≠ "http".toList ∧ v ≠ "https".toList) := by
  unfold UrlScheme.tryFrom
  split_ifs with h1 h2
  · simp_all
  · simp_all
  · simp only [Except.error.injEq]
    constructor
    · intro he
      exact ⟨he.symm, h1, h2⟩
    · intro he
      exact he.1.symm

theorem tryFrom_ok_scheme (v : List Char) (sch : UrlScheme)
    (h : UrlScheme.tryFrom v = .ok sch) : v = "http".toList ∨ v = "https".toList := by
  unfold UrlScheme.tryFrom at h
  by_cases h1 : v = "http".toList
  · exact Or.inl h1
  · by_cases h2 : v = "https".toList
    · exact Or.inr h2
    · rw [if_neg h1, if_neg h2] at h
      simp at h

theorem fromStr_eq_split_none (s : List Char)
    (h : splitOnce "://".toList s = none) :
    Url.fromStr s = .error .MissingScheme := by
  unfold Url.fromStr
  rw [h]

theorem fromStr_eq_split_some (s sch rest : List Char)
    (h : splitOnce "://".toList s = some (sch, rest)) :
    Url.fromStr s =
      match UrlScheme.tryFrom sch with
      | .error e => .error e
      | .ok scheme => Url.parseRest scheme rest := by
  unfold Url.fromStr
  rw [h]

theorem fromStr_eq_of_tryFrom_error (s sch rest : List Char) (e : UrlError)
    (h : splitOnce "://".toList s = some (sch, rest))
    (h2 : UrlScheme.tryFrom sch = .error e) : Url.fromStr s = .error e := by
  rw [fromStr_eq_split_some s sch rest h, h2]

theorem fromStr_eq_of_tryFrom_ok (s sch rest : List Char) (scheme : UrlScheme)
    (h : splitOnce "://".toList s = some (sch, rest))
    (h2 : UrlScheme.tryFrom sch = .ok scheme) :
    Url.fromStr s = Url.parseRest scheme rest := by
  rw [fromStr_eq_split_some s sch rest h, h2]

theorem parseRest_eq_none (scheme : UrlScheme) (rest : List Char)
    (h : splitOnce ['/'] rest = none) :
    Url.parseRest scheme rest = .ok (Url.new scheme rest none) := by
  unfold Url.parseRest
  rw [h]

theorem parseRest_eq_some_nil (scheme : UrlScheme) (rest h0 : List Char)
    (h : splitOnce ['/'] rest = some (h0, [])) :
    Url.parseRest scheme rest = .ok (Url.new scheme h0 none) := by
  unfold Url.parseRest
  rw [h]

theorem parseRest_eq_some_cons (scheme : UrlScheme) (rest host : List Char)
    (pc : Char) (pcs : List Char)
    (h : splitOnce ['/'] rest = some (host, pc :: pcs)) :
    Url.parseRest scheme rest =
      if host = [] then .error .MissingHost
      else if stripPath (pc :: pcs) = [] then .ok (Url.new scheme host none)
      else .ok (Url.new scheme host (some (stripPath (pc :: pcs)))) := by
  unfold Url.parseRest
  rw [h]

theorem parseRest_error_iff (scheme : UrlScheme) (rest : List Char) (e : UrlError) :
    Url.parseRest scheme rest = .error e ↔
      (e = .MissingHost ∧ ∃ p : List Char, splitOnce ['/'] rest = some ([], p) ∧ p ≠ []) := by
  cases hsp : splitOnce ['/'] rest with
  | none =>
    rw [parseRest_eq_none scheme rest hsp]
    apply iff_of_false (by simp)
    rintro ⟨-, p, hx, -⟩
    cases hx
  | some q =>
    obtain ⟨host, path0⟩ := q
    cases path0 with
    | nil =>
      rw [parseRest_eq_some_nil scheme rest host hsp]
      apply iff_of_false (by simp)
      rintro ⟨-, p, hx, hp⟩
      simp only [Option.some.injEq, Prod.mk.injEq] at hx
      exact hp hx.2.symm
    | cons pc pcs =>
      rw [parseRest_eq_some_cons scheme rest host pc pcs hsp]
      by_cases hh : host = []
      · subst hh
        rw [if_pos rfl]
        simp only [Except.error.injEq]
        constructor
        · intro he
          exact ⟨he.symm, pc :: pcs, rfl, by simp⟩
        · rintro ⟨he, -⟩
          exact he.symm
      · rw [if_neg hh]
        apply iff_of_false
        · split_ifs <;> simp
        · rintro ⟨-, p, hx, -⟩
          simp only [Option.some.injEq, Prod.mk.injEq] at hx
          exact hh hx.1

theorem fromStr_eq_missingScheme (s : List Char) :
    Url.fromStr s = .error .MissingScheme ↔ splitOnce "://".toList s = none := by
  cases hsp : splitOnce "://".toList s with
  | none => simp [fromStr_eq_split_none s hsp]
  | some q =>
    obtain ⟨sch, rest⟩ := q
    apply iff_of_false ?_ (by simp)
    cases htf : UrlScheme.tryFrom sch with
    | error e =>
      rw [fromStr_eq_of_tryFrom_error s sch rest e hsp htf]
      have he : e = .InvalidScheme := ((tryFrom_error_iff sch e).mp htf).1
      simp [he]
    | ok scheme =>
      rw [fromStr_eq_of_tryFrom_ok s sch rest scheme hsp htf]
      intro hc
      exact absurd ((parseRest_error_iff scheme rest .MissingScheme).mp hc).1 (by simp)

theorem fromStr_invalidScheme (s sch rest : List Char)
    (hsp : splitOnce "://".toList s = some (sch, rest))
    (h1 : sch ≠ "http".toList) (h2 : sch ≠ "https".toList) :
    Url.fromStr s = .error .InvalidScheme := by
  have htf : UrlScheme.tryFrom sch = .error .InvalidScheme := by
    unfold UrlScheme.tryFrom
    rw [if_neg h1, if_neg h2]
  exact fromStr_eq_of_tryFrom_error s sch rest .InvalidScheme hsp htf

theorem fromStr_eq_missingHost (s : List Char) :
    Url.fromStr s = .error .MissingHost ↔
      ∃ sch rest : List Char, splitOnce "://".toList s = some (sch, rest) ∧
        (sch = "http".toList ∨ sch = "https".toList) ∧
        ∃ p : List Char, splitOnce ['/'] rest = some ([], p) ∧ p ≠ [] := by
  cases hsp : splitOnce "://".toList s with
  | none =>
    rw [fromStr_eq_split_none s hsp]
    apply iff_of_false (by simp)
    rintro ⟨sch, rest, hx, -⟩
    cases hx
  | some q =>
    obtain ⟨sch, rest⟩ := q
    cases htf : UrlScheme.tryFrom sch with
    | error e =>
      rw [fromStr_eq_of_tryFrom_error s sch rest e hsp htf]
      have hif := (tryFrom_error_iff sch e).mp htf
      apply iff_of_false
      · simp [hif.1]
      · rintro ⟨sch2, rest2, hx, hv, -⟩
        simp only [Option.some.injEq, Prod.mk.injEq] at hx
        rcases hv with hv | hv
        · exact hif.2.1 (hx.1.trans hv)
        · exact hif.2.2 (hx.1.trans hv)
    | ok scheme =>
      rw [fromStr_eq_of_tryFrom_ok s sch rest scheme hsp htf,
        parseRest_error_iff scheme rest .MissingHost]
      constructor
      · rintro ⟨-, p, hx, hp⟩
        exact ⟨sch, rest, rfl, tryFrom_ok_scheme sch scheme htf, p, hx, hp⟩
      · rintro ⟨sch2, rest2, hx, -, p, hx2, hp⟩
        simp only [Option.some.injEq, Prod.mk.injEq] at hx
        obtain ⟨h1, h2⟩ := hx
        subst h1
        subst h2
        exact ⟨rfl, p, hx2, hp⟩

theorem stripPath_not_hash (p : List Char) : '#' ∉ stripPath p := by
  unfold stripPath
  cases hsp : splitOnce ['#'] p with
  | some q =>
    obtain ⟨w, f⟩ := q
    intro hm
    exact splitOnce_single_fst_not_mem '#' p w f hsp (trimEndMatches_subset '/' w '#' hm)
  | none =>
    intro hm
    exact splitOnce_single_none_not_mem '#' p hsp (trimEndMatches_subset '/' p '#' hm)

theorem stripPath_getLast? (p : List Char) : (stripPath p).getLast? ≠ some '/' := by
  unfold stripPath
  exact trimEndMatches_getLast? '/' _

theorem parseRest_ok_canonical (scheme : UrlScheme) (rest : List Char) (u : Url)
    (h : Url.parseRest scheme rest = .ok u) : canonicalPath u.path := by
  cases hsp : splitOnce ['/'] rest with
  | none =>
    rw [parseRest_eq_none scheme rest hsp] at h
    simp only [Except.ok.injEq] at h
    subst h
    simp [Url.new, canonicalPath]
  | some q =>
    obtain ⟨host, path0⟩ := q
    cases path0 with
    | nil =>
      rw [parseRest_eq_some_nil scheme rest host hsp] at h
      simp only [Except.ok.injEq] at h
      subst h
      simp [Url.new, canonicalPath]
    | cons pc pcs =>
      rw [parseRest_eq_some_cons scheme rest host pc pcs hsp] at h
      split_ifs at h with hh hz
      · simp only [Except.ok.injEq] at h
        subst h
        simp [Url.new, canonicalPath]
      · simp only [Except.ok.injEq] at h
        subst h
        exact ⟨hz, stripPath_not_hash (pc :: pcs), stripPath_getLast? (pc :: pcs)⟩

theorem fromStr_ok_canonical (s : List Char) (u : Url)
    (h : Url.fromStr s = .ok u) : canonicalPath u.path := by
  cases hsp : splitOnce "://".toList s with
  | none =>
    rw [fromStr_eq_split_none s hsp] at h
    simp at h
  | some q =>
    obtain ⟨sch, rest⟩ := q
    cases htf : UrlScheme.tryFrom sch with
    | error e =>
      rw [fromStr_eq_of_tryFrom_error s sch rest e hsp htf] at h
      simp at h
    | ok scheme =>
      rw [fromStr_eq_of_tryFrom_ok s sch rest scheme hsp htf] at h
      exact parseRest_ok_canonical scheme rest u h

/-! ## Url resolution (`new_with_base`) lemmas -/

theorem newWithBase_eq_pre (base_url : Url) (s : List Char)
    (hpre : ("http://".toList).isPrefixOf s ∨ ("https://".toList).isPrefixOf s) :
    Url.newWithBase base_url s =
      match Url.fromStr s with
      | .ok url =>
        if url.scheme ≠ base_url.scheme ∨ url.host ≠ base_url.host then
          .error .DifferentSchemeOrHost
        else .ok url
      | .error e => .error e := by
  unfold Url.newWithBase
  rw [if_pos hpre]

theorem newWithBase_eq_slash (base_url : Url) (s : List Char)
    (hnp : ¬(("http://".toList).isPrefixOf s ∨ ("https://".toList).isPrefixOf s))
    (hs : (['/']).isPrefixOf s) :
    Url.newWithBase base_url s =
      .ok (Url.new base_url.scheme base_url.host
        (if s = ['/'] then none else some (s.dropWhile (fun c => c == '/')))) := by
  unfold Url.newWithBase
  rw [if_neg hnp, if_pos hs]

theorem newWithBase_eq_other (base_url : Url) (s : List Char)
    (hnp : ¬(("http://".toList).isPrefixOf s ∨ ("https://".toList).isPrefixOf s))
    (hns : ¬(['/']).isPrefixOf s) :
    Url.newWithBase base_url s = .error .UnexpectedFormat := by
  unfold Url.newWithBase
  rw [if_neg hnp, if_neg hns]

theorem slashPre_not_httpPre (s : List Char) (hs : (['/']).isPrefixOf s) :
    ¬(("http://".toList).isPrefixOf s ∨ ("https://".toList).isPrefixOf s) := by
  cases s with
  | nil => simp [List.isPrefixOf] at hs
  | cons c t =>
    have hc : c = '/' := by
      simp [List.isPrefixOf] at hs
      exact hs.symm
    subst hc
    rintro (hp | hp) <;> simp [List.isPrefixOf] at hp

/-! ## Journal: reconciliation -/

theorem jacc_maybe_pending (entries : List JournalEntry) (a : JAcc) :
    (entries.foldl JAcc.step a).maybe_pending =
      a.maybe_pending ++ entries.filterMap JournalEntry.pendingUrl := by
  induction entries generalizing a with
  | nil => simp
  | cons e rest ih =>
    cases e <;> simp [JAcc.step, JournalEntry.pendingUrl, ih]

theorem jacc_maybe_processing (entries : List JournalEntry) (a : JAcc) (u : Url) :
    u ∈ (entries.foldl JAcc.step a).maybe_processing ↔
      u ∈ a.maybe_processing ∨ JournalEntry.Processing u ∈ entries := by
  induction entries generalizing a with
  | nil => simp
  | cons e rest ih =>
    cases e <;> simp [JAcc.step, ih, Finset.mem_insert] <;> tauto

theorem jacc_processed (entries : List JournalEntry) (a : JAcc) (u : Url) :
    u ∈ (entries.foldl JAcc.step a).processed ↔
      u ∈ a.processed ∨ JournalEntry.Processed u ∈ entries := by
  induction entries generalizing a with
  | nil => simp
  | cons e rest ih =>
    cases e <;> simp [JAcc.step, ih, Finset.mem_insert] <;> tauto

theorem jacc_failed (entries : List JournalEntry) (a : JAcc) (u : Url) :
    u ∈ (entries.foldl JAcc.step a).failed ↔
      u ∈ a.failed ∨ JournalEntry.Failed u ∈ entries := by
  induction entries generalizing a with
  | nil => simp
  | cons e rest ih =>
    cases e <;> simp [JAcc.step, ih, Finset.mem_insert] <;> tauto

theorem load_history_pending_eq (entries : List JournalEntry) :
    (Journal.load_history entries).pending =
      (entries.filterMap JournalEntry.pendingUrl).filter
        (fun u => decide (JournalEntry.Processing u ∉ entries ∧
          JournalEntry.Processed u ∉ entries ∧ JournalEntry.Failed u ∉ entries)) := by
  simp only [Journal.load_history]
  rw [jacc_maybe_pending entries ⟨[], ∅, ∅, ∅⟩, List.nil_append]
  apply List.filter_congr
  intro u _
  simp only [decide_eq_decide]
  rw [jacc_maybe_processing entries ⟨[], ∅, ∅, ∅⟩ u,
    jacc_processed entries ⟨[], ∅, ∅, ∅⟩ u, jacc_failed entries ⟨[], ∅, ∅, ∅⟩ u]
  simp

theorem pendingUrl_eq_some (e : JournalEntry) (u : Url) :
    e.pendingUrl = some u ↔ e = JournalEntry.Pending u := by
  cases e <;> simp [JournalEntry.pendingUrl]

theorem load_history_pending_mem (entries : List JournalEntry) (u : Url) :
    u ∈ (Journal.load_history entries).pending ↔
      (JournalEntry.Pending u ∈ entries ∧ JournalEntry.Processing u ∉ entries ∧
        JournalEntry.Processed u ∉ entries ∧ JournalEntry.Failed u ∉ entries) := by
  rw [load_history_pending_eq]
  simp only [List.mem_filter, List.mem_filterMap, pendingUrl_eq_some, decide_eq_true_eq]
  constructor
  · rintro ⟨⟨e, he, rfl⟩, h⟩
    exact ⟨he, h⟩
  · rintro ⟨he, h⟩
    exact ⟨⟨JournalEntry.Pending u, he, rfl⟩, h⟩

theorem load_history_processing_mem (entries : List JournalEntry) (u : Url) :
    u ∈ (Journal.load_history entries).processing ↔
      (JournalEntry.Processing u ∈ entries ∧ JournalEntry.Processed u ∉ entries ∧
        JournalEntry.Failed u ∉ entries) := by
  simp only [Journal.load_history, Finset.mem_filter]
  rw [jacc_maybe_processing entries ⟨[], ∅, ∅, ∅⟩ u,
    jacc_processed entries ⟨[], ∅, ∅, ∅⟩ u, jacc_failed entries ⟨[], ∅, ∅, ∅⟩ u]
  simp [and_assoc]

theorem load_history_processed_mem (entries : List JournalEntry) (u : Url) :
    u ∈ (Journal.load_history entries).processed ↔ JournalEntry.Processed u ∈ entries := by
  simp only [Journal.load_history]
  rw [jacc_processed entries ⟨[], ∅, ∅, ∅⟩ u]
  simp

theorem load_history_failed_mem (entries : List JournalEntry) (u : Url) :
    u ∈ (Journal.load_history entries).failed ↔ JournalEntry.Failed u ∈ entries := by
  simp only [Journal.load_history]
  rw [jacc_failed entries ⟨[], ∅, ∅, ∅⟩ u]
  simp

/-- C7: after replaying a list of journal entries, the reconciled
`pending` is exactly the list of URLs of the `Pending` entries, in log
order, restricted to URLs with no `Processing`, `Processed` or `Failed`
entry; the reconciled `processing` set holds exactly the URLs with a
`Processing` entry and no `Processed` or `Failed` entry; and a log
ending with an unterminated `Processing` entry for a URL places that URL
in `processing`, not in `pending` nor `processed`. -/
theorem journal_reconciliation (entries : List JournalEntry) :
    ((Journal.load_history entries).pending =
      (entries.filterMap JournalEntry.pendingUrl).filter
        (fun u => decide (JournalEntry.Processing u ∉ entries ∧
          JournalEntry.Processed u ∉ entries ∧ JournalEntry.Failed u ∉ entries))) ∧
    (∀ u : Url, u ∈ (Journal.load_history entries).processing ↔
      (JournalEntry.Processing u ∈ entries ∧ JournalEntry.Processed u ∉ entries ∧
        JournalEntry.Failed u ∉ entries)) ∧
    (∀ u : Url, entries.getLast? = some (JournalEntry.Processing u) →
      JournalEntry.Processed u ∉ entries → JournalEntry.Failed u ∉ entries →
      (u ∈ (Journal.load_history entries).processing ∧
        u ∉ (Journal.load_history entries).pending ∧
        u ∉ (Journal.load_history entries).processed)) := by
  refine ⟨load_history_pending_eq entries, fun u => load_history_processing_mem entries u, ?_⟩
  intro u hlast hnd hnf
  have hmem : JournalEntry.Processing u ∈ entries := List.mem_of_mem_getLast? hlast
  refine ⟨(load_history_processing_mem entries u).mpr ⟨hmem, hnd, hnf⟩, ?_, ?_⟩
  · intro hp
    exact ((load_history_pending_mem entries u).mp hp).2.1 hmem
  · intro hp
    exact hnd ((load_history_processed_mem entries u).mp hp)

/-- Witness for C7 on the concrete log `[Pending a, Processing a]`: the
unterminated `Processing` entry leaves `http://a` in reconciled
`processing` only. -/
theorem journal_reconciliation_witness :
    (⟨.HTTP, ['a'], none⟩ : Url) ∈
      (Journal.load_history [.Pending ⟨.HTTP, ['a'], none⟩,
        .Processing ⟨.HTTP, ['a'], none⟩]).processing ∧
    (⟨.HTTP, ['a'], none⟩ : Url) ∉
      (Journal.load_history [.Pending ⟨.HTTP, ['a'], none⟩,
        .Processing ⟨.HTTP, ['a'], none⟩]).pending ∧
    (⟨.HTTP, ['a'], none⟩ : Url) ∉
      (Journal.load_history [.Pending ⟨.HTTP, ['a'], none⟩,
        .Processing ⟨.HTTP, ['a'], none⟩]).processed :=
  (journal_reconciliation
      [.Pending ⟨.HTTP, ['a'], none⟩, .Processing ⟨.HTTP, ['a'], none⟩]).2.2
    ⟨.HTTP, ['a'], none⟩ (by decide) (by decide) (by decide)

/-- C8: the claim as stated is false.  For the log
`[Processed a, Failed a]` — which a real crawl produces when a failed
URL is rediscovered and then fetched successfully — the URL `http://a`
appears in both the reconciled `processed` and the reconciled `failed`
lists. -/
theorem journal_atMostOne_cex :
    (⟨.HTTP, ['a'], none⟩ : Url) ∈ (Journal.load_history
      [.Processed ⟨.HTTP, ['a'], none⟩, .Failed ⟨.HTTP, ['a'], none⟩]).processed ∧
    (⟨.HTTP, ['a'], none⟩ : Url) ∈ (Journal.load_history
      [.Processed ⟨.HTTP, ['a'], none⟩, .Failed ⟨.HTTP, ['a'], none⟩]).failed := by
  decide

/-- C8 (amended): in the reconciled `JournalHistory`, a URL in `pending`
is in none of the other three lists, and a URL in `processing` is in
neither `processed` nor `failed`; but `processed` and `failed` are taken
as-is from the log, so a URL with both a `Processed` and a `Failed`
entry appears in both. -/
theorem journal_atMostOne_amended (entries : List JournalEntry) (u : Url) :
    (u ∈ (Journal.load_history entries).pending →
      u ∉ (Journal.load_history entries).processing ∧
      u ∉ (Journal.load_history entries).processed ∧
      u ∉ (Journal.load_history entries).failed) ∧
    (u ∈ (Journal.load_history entries).processing →
      u ∉ (Journal.load_history entries).processed ∧
      u ∉ (Journal.load_history entries).failed) := by
  constructor
  · intro hp
    have h := (load_history_pending_mem entries u).mp hp
    exact ⟨fun hc => h.2.1 ((load_history_processing_mem entries u).mp hc).1,
      fun hc => h.2.2.1 ((load_history_processed_mem entries u).mp hc),
      fun hc => h.2.2.2 ((load_history_failed_mem entries u).mp hc)⟩
  · intro hr
    have h := (load_history_processing_mem entries u).mp hr
    exact ⟨fun hc => h.2.1 ((load_history_processed_mem entries u).mp hc),
      fun hc => h.2.2 ((load_history_failed_mem entries u).mp hc)⟩

/-- Witness for the amended C8 theorem on the concrete logs
`[Pending a]` and `[Processing a]`. -/
theorem journal_atMostOne_amended_witness :
    ((⟨.HTTP, ['a'], none⟩ : Url) ∉
        (Journal.load_history [.Pending ⟨.HTTP, ['a'], none⟩]).processing ∧
      (⟨.HTTP, ['a'], none⟩ : Url) ∉
        (Journal.load_history [.Pending ⟨.HTTP, ['a'], none⟩]).processed ∧
      (⟨.HTTP, ['a'], none⟩ : Url) ∉
        (Journal.load_history [.Pending ⟨.HTTP, ['a'], none⟩]).failed) ∧
    ((⟨.HTTP, ['a'], none⟩ : Url) ∉
        (Journal.load_history [.Processing ⟨.HTTP, ['a'], none⟩]).processed ∧
      (⟨.HTTP, ['a'], none⟩ : Url) ∉
        (Journal.load_history [.Processing ⟨.HTTP, ['a'], none⟩]).failed) :=
  ⟨(journal_atMostOne_amended [.Pending ⟨.HTTP, ['a'], none⟩] ⟨.HTTP, ['a'], none⟩).1
      (by decide),
    (journal_atMostOne_amended [.Processing ⟨.HTTP, ['a'], none⟩] ⟨.HTTP, ['a'], none⟩).2
      (by decide)⟩

/-! ## Duplicate pending entries survive into the queue (C10) -/

theorem count_filterMap_pendingUrl (entries : List JournalEntry) (u : Url) :
    (entries.filterMap JournalEntry.pendingUrl).count u =
      entries.count (JournalEntry.Pending u) := by
  induction entries with
  | nil => rfl
  | cons e rest ih =>
    cases e <;> simp [JournalEntry.pendingUrl, List.count_cons, ih]

theorem drainN_pending (n : Nat) :
    ∀ q : Queue, q.pending.length = n → Queue.drainN n q = q.pending := by
  induction n with
  | zero =>
    intro q h
    rw [List.length_eq_zero] at h
    rw [h]
    rfl
  | succ n ih =>
    intro q h
    match hq : q.pending with
    | [] => rw [hq] at h; simp at h
    | a :: rest =>
      have hlen : rest.length = n := by rw [hq] at h; simpa using h
      simp only [Queue.drainN, Queue.next, hq]
      rw [ih _ hlen]

theorem new_from_history_pending (base_url : Url) (h : JournalHistory) :
    (Queue.new_from_history base_url h).pending = h.pending ∨
      ((Queue.new_from_history base_url h).pending = h.pending ++ [base_url] ∧
        base_url ∉ h.pending) := by
  unfold Queue.new_from_history Queue.add_pending
  split
  · rename_i hc
    exact Or.inr ⟨rfl, fun hm => hc.1 (List.mem_toFinset.mpr hm)⟩
  · exact Or.inl rfl

/-- C10: a log with exactly two `Pending` entries for `u` and no other
entry mentioning `u` reconciles to a `pending` list containing `u`
twice, and the queue seeded from that history returns `u` from two
distinct `next()` calls (the deque keeps the duplicate even though the
membership set deduplicates). -/
theorem journal_duplicate_pending (entries : List JournalEntry) (u base_url : Url)
    (hcount : entries.count (JournalEntry.Pending u) = 2)
    (hno : ∀ e ∈ entries, e ≠ JournalEntry.Processing u ∧ e ≠ JournalEntry.Processed u ∧
      e ≠ JournalEntry.Failed u) :
    (Journal.load_history entries).pending.count u = 2 ∧
    (Queue.drainN
        (Queue.new_from_history base_url (Journal.load_history entries)).pending.length
        (Queue.new_from_history base_url (Journal.load_history entries))).count u = 2 := by
  have hproc : JournalEntry.Processing u ∉ entries := fun hm => (hno _ hm).1 rfl
  have hprd : JournalEntry.Processed u ∉ entries := fun hm => (hno _ hm).2.1 rfl
  have hfl : JournalEntry.Failed u ∉ entries := fun hm => (hno _ hm).2.2 rfl
  have h1 : (Journal.load_history entries).pending.count u = 2 := by
    rw [load_history_pending_eq, List.count_filter (by simp [hproc, hprd, hfl]),
      count_filterMap_pendingUrl]
    exact hcount
  have hu : u ∈ (Journal.load_history entries).pending := by
    by_contra hc
    rw [List.count_eq_zero.mpr hc] at h1
    exact two_ne_zero h1.symm
  refine ⟨h1, ?_⟩
  rw [drainN_pending _ _ rfl]
  rcases new_from_history_pending base_url (Journal.load_history entries) with hp | ⟨hp, hb⟩
  · rw [hp]; exact h1
  · have hz : List.count u [base_url] = 0 := by
      rw [List.count_eq_zero, List.mem_singleton]
      exact fun he => hb (he ▸ hu)
    rw [hp, List.count_append, h1, hz]

/-! ## Base64 lemmas -/

theorem b64_val_lt (v : Nat) (h : v < 64) :
    val_from_base64_char (b64char v) = some v := by
  have hall : ∀ k : Fin 64, val_from_base64_char (b64char k.val) = some k.val := by decide
  exact hall ⟨v, h⟩

theorem b64_ne_eq (v : Nat) (h : v < 64) : b64char v ≠ '=' := by
  have hall : ∀ k : Fin 64, b64char k.val ≠ '=' := by decide
  exact hall ⟨v, h⟩

theorem b64_not_ws (v : Nat) (h : v < 64) : isAsciiWhitespace (b64char v) = false := by
  have hall : ∀ k : Fin 64, isAsciiWhitespace (b64char k.val) = false := by decide
  exact hall ⟨v, h⟩

theorem chunkVal_b64 (i j v : Nat) (h : v < 64) : chunkVal i j (b64char v) = .ok v := by
  unfold chunkVal
  rw [if_neg (b64_ne_eq v h), b64_val_lt v h]

theorem chunkVal_pad (i j : Nat) : chunkVal i j '=' = .ok 0 := by
  unfold chunkVal
  rw [if_pos rfl]

theorem decodeChunks_cons {i : Nat} {c0 c1 c2 c3 : Char} {rest : List Char}
    {v0 v1 v2 v3 : Nat} {tail : List Nat}
    (h0 : chunkVal i 0 c0 = .ok v0) (h1 : chunkVal i 1 c1 = .ok v1)
    (h2 : chunkVal i 2 c2 = .ok v2) (h3 : chunkVal i 3 c3 = .ok v3)
    (ht : decodeChunks (i + 1) rest = .ok tail) :
    decodeChunks i (c0 :: c1 :: c2 :: c3 :: rest) =
      .ok ((v0 * 262144 + v1 * 4096 + v2 * 64 + v3) / 65536 % 256 ::
        ((if c2 ≠ '=' then [(v0 * 262144 + v1 * 4096 + v2 * 64 + v3) / 256 % 256] else []) ++
          ((if c3 ≠ '=' then [(v0 * 262144 + v1 * 4096 + v2 * 64 + v3) % 256] else []) ++
            tail))) := by
  unfold decodeChunks
  rw [h0, h1, h2, h3, ht]
  rfl

theorem chunkVal_error {i j : Nat} {c : Char} {e : DecodeError}
    (h : chunkVal i j c = .error e) : e = .InvalidCharacter c (i * 4 + j) := by
  unfold chunkVal at h
  by_cases h1 : c = '='
  · rw [if_pos h1] at h
    simp at h
  · rw [if_neg h1] at h
    cases hv : val_from_base64_char c with
    | some v =>
      rw [hv] at h
      simp at h
    | none =>
      rw [hv] at h
      simp only [Except.error.injEq] at h
      exact h.symm

theorem decodeChunks_err0 {i : Nat} {c0 c1 c2 c3 : Char} {rest : List Char} {e : DecodeError}
    (h0 : chunkVal i 0 c0 = .error e) :
    decodeChunks i (c0 :: c1 :: c2 :: c3 :: rest) = .error e := by
  unfold decodeChunks
  rw [h0]
  rfl

theorem decodeChunks_err1 {i : Nat} {c0 c1 c2 c3 : Char} {rest : List Char}
    {v0 : Nat} {e : DecodeError}
    (h0 : chunkVal i 0 c0 = .ok v0) (h1 : chunkVal i 1 c1 = .error e) :
    decodeChunks i (c0 :: c1 :: c2 :: c3 :: rest) = .error e := by
  unfold decodeChunks
  rw [h0, h1]
  rfl

theorem decodeChunks_err2 {i : Nat} {c0 c1 c2 c3 : Char} {rest : List Char}
    {v0 v1 : Nat} {e : DecodeError}
    (h0 : chunkVal i 0 c0 = .ok v0) (h1 : chunkVal i 1 c1 = .ok v1)
    (h2 : chunkVal i 2 c2 = .error e) :
    decodeChunks i (c0 :: c1 :: c2 :: c3 :: rest) = .error e := by
  unfold decodeChunks
  rw [h0, h1, h2]
  rfl

theorem decodeChunks_err3 {i : Nat} {c0 c1 c2 c3 : Char} {rest : List Char}
    {v0 v1 v2 : Nat} {e : DecodeError}
    (h0 : chunkVal i 0 c0 = .ok v0) (h1 : chunkVal i 1 c1 = .ok v1)
    (h2 : chunkVal i 2 c2 = .ok v2) (h3 : chunkVal i 3 c3 = .error e) :
    decodeChunks i (c0 :: c1 :: c2 :: c3 :: rest) = .error e := by
  unfold decodeChunks
  rw [h0, h1, h2, h3]
  rfl

theorem decodeChunks_errt {i : Nat} {c0 c1 c2 c3 : Char} {rest : List Char}
    {v0 v1 v2 v3 : Nat} {e : DecodeError}
    (h0 : chunkVal i 0 c0 = .ok v0) (h1 : chunkVal i 1 c1 = .ok v1)
    (h2 : chunkVal i 2 c2 = .ok v2) (h3 : chunkVal i 3 c3 = .ok v3)
    (ht : decodeChunks (i + 1) rest = .error e) :
    decodeChunks i (c0 :: c1 :: c2 :: c3 :: rest) = .error e := by
  unfold decodeChunks
  rw [h0, h1, h2, h3, ht]
  rfl

/-- The chunk loop can only fail with `InvalidCharacter`: every other
error kind of `base64_decode` comes from the guards before it. -/
theorem decodeChunks_ne_invalidLength : ∀ (i : Nat) (l : List Char),
    decodeChunks i l ≠ .error .InvalidLength
  | _, [] => by simp [decodeChunks]
  | _, [_] => by simp [decodeChunks]
  | _, [_, _] => by simp [decodeChunks]
  | _, [_, _, _] => by simp [decodeChunks]
  | i, c0 :: c1 :: c2 :: c3 :: rest => by
    cases h0 : chunkVal i 0 c0 with
    | error e =>
      rw [decodeChunks_err0 h0, chunkVal_error h0]
      simp
    | ok v0 =>
      cases h1 : chunkVal i 1 c1 with
      | error e =>
        rw [decodeChunks_err1 h0 h1, chunkVal_error h1]
        simp
      | ok v1 =>
        cases h2 : chunkVal i 2 c2 with
        | error e =>
          rw [decodeChunks_err2 h0 h1 h2, chunkVal_error h2]
          simp
        | ok v2 =>
          cases h3 : chunkVal i 3 c3 with
          | error e =>
            rw [decodeChunks_err3 h0 h1 h2 h3, chunkVal_error h3]
            simp
          | ok v3 =>
            cases ht : decodeChunks (i + 1) rest with
            | error e =>
              rw [decodeChunks_errt h0 h1 h2 h3 ht]
              have hne := decodeChunks_ne_invalidLength (i + 1) rest
              rw [ht] at hne
              exact hne
            | ok tail =>
              rw [decodeChunks_cons h0 h1 h2 h3 ht]
              simp

/-- `base64_decode` fails with `InvalidLength` exactly when the input's
length after removing ASCII whitespace is not a multiple of 4. -/
theorem base64_decode_invalidLength_iff (s : List Char) :
    base64_decode s = .error .InvalidLength ↔
      (s.filter (fun c => !(isAsciiWhitespace c))).length % 4 ≠ 0 := by
  constructor
  · intro h
    by_contra hlen
    simp only [base64_decode] at h
    by_cases hnil : s.filter (fun c => !(isAsciiWhitespace c)) = []
    · rw [if_pos hnil] at h
      simp at h
    · rw [if_neg hnil, if_neg (fun hc => hc hlen)] at h
      split_ifs at h with hp hq
      · simp at h
      · simp at h
      · exact decodeChunks_ne_invalidLength 0 _ h
  · intro h
    have hne : s.filter (fun c => !(isAsciiWhitespace c)) ≠ [] := by
      intro hz
      rw [hz] at h
      simp at h
    simp only [base64_decode]
    rw [if_neg hne, if_pos h]

theorem decodeChunks_encode : ∀ (i : Nat) (b : List Nat), (∀ x ∈ b, x < 256) →
    decodeChunks i (base64_encode b) = .ok b
  | _, [], _ => by simp [base64_encode, decodeChunks]
  | i, [b0], h => by
    have hb0 : b0 < 256 := h b0 (by simp)
    simp only [base64_encode]
    rw [decodeChunks_cons (chunkVal_b64 i 0 _ (Nat.mod_lt _ (by norm_num)))
      (chunkVal_b64 i 1 _ (Nat.mod_lt _ (by norm_num)))
      (chunkVal_pad i 2) (chunkVal_pad i 3)
      (show decodeChunks (i + 1) [] = .ok [] by simp [decodeChunks])]
    simp only [ne_eq, not_true_eq_false, if_false, List.nil_append, Except.ok.injEq,
      List.cons.injEq, and_true]
    omega
  | i, [b0, b1], h => by
    have hb0 : b0 < 256 := h b0 (by simp)
    have hb1 : b1 < 256 := h b1 (by simp)
    simp only [base64_encode]
    rw [decodeChunks_cons (chunkVal_b64 i 0 _ (Nat.mod_lt _ (by norm_num)))
      (chunkVal_b64 i 1 _ (Nat.mod_lt _ (by norm_num)))
      (chunkVal_b64 i 2 _ (Nat.mod_lt _ (by norm_num)))
      (chunkVal_pad i 3)
      (show decodeChunks (i + 1) [] = .ok [] by simp [decodeChunks])]
    rw [if_pos (b64_ne_eq _ (Nat.mod_lt _ (by norm_num)))]
    simp only [ne_eq, not_true_eq_false, if_false, List.append_nil, List.singleton_append,
      Except.ok.injEq, List.cons.injEq, and_true]
    constructor
    · omega
    · omega
  | i, b0 :: b1 :: b2 :: rest, h => by
    have hb0 : b0 < 256 := h b0 (by simp)
    have hb1 : b1 < 256 := h b1 (by simp)
    have hb2 : b2 < 256 := h b2 (by simp)
    have hrest : ∀ x ∈ rest, x < 256 := fun x hx => h x (by simp [hx])
    have ih := decodeChunks_encode (i + 1) rest hrest
    simp only [base64_encode]
    rw [decodeChunks_cons (chunkVal_b64 i 0 _ (Nat.mod_lt _ (by norm_num)))
      (chunkVal_b64 i 1 _ (Nat.mod_lt _ (by norm_num)))
      (chunkVal_b64 i 2 _ (Nat.mod_lt _ (by norm_num)))
      (chunkVal_b64 i 3 _ (Nat.mod_lt _ (by norm_num))) ih]
    rw [if_pos (b64_ne_eq _ (Nat.mod_lt _ (by norm_num))),
      if_pos (b64_ne_eq _ (Nat.mod_lt _ (by norm_num)))]
    simp only [List.singleton_append, List.cons_append, List.nil_append, Except.ok.injEq,
      List.cons.injEq, and_true]
    refine ⟨?_, ?_, ?_⟩
    · omega
    · omega
    · omega

theorem encode_length : ∀ b : List Nat, (base64_encode b).length % 4 = 0
  | [] => by simp [base64_encode]
  | [_] => by simp [base64_encode]
  | [_, _] => by simp [base64_encode]
  | _ :: _ :: _ :: rest => by
    have ih := encode_length rest
    simp only [base64_encode, List.length_cons]
    omega

theorem encode_shape : ∀ b : List Nat,
    ∃ core p, base64_encode b = core ++ List.replicate p '=' ∧
      (∀ c ∈ core, ∃ k, k < 64 ∧ c = b64char k) ∧ p ≤ 2 ∧ (b ≠ [] → core ≠ [])
  | [] => by
    refine ⟨[], 0, by simp [base64_encode], by simp, by norm_num, fun hh => absurd rfl hh⟩
  | [b0] => by
    refine ⟨[b64char (b0 * 65536 / 262144 % 64), b64char (b0 * 65536 / 4096 % 64)], 2,
      ?_, ?_, by norm_num, fun _ => by simp⟩
    · simp [base64_encode, List.replicate]
    · intro c hc
      simp only [List.mem_cons, List.not_mem_nil, or_false] at hc
      rcases hc with rfl | rfl
      · exact ⟨_, Nat.mod_lt _ (by norm_num), rfl⟩
      · exact ⟨_, Nat.mod_lt _ (by norm_num), rfl⟩
  | [b0, b1] => by
    refine ⟨[b64char ((b0 * 65536 + b1 * 256) / 262144 % 64),
        b64char ((b0 * 65536 + b1 * 256) / 4096 % 64),
        b64char ((b0 * 65536 + b1 * 256) / 64 % 64)], 1,
      ?_, ?_, by norm_num, fun _ => by simp⟩
    · simp [base64_encode, List.replicate]
    · intro c hc
      simp only [List.mem_cons, List.not_mem_nil, or_false] at hc
      rcases hc with rfl | rfl | rfl
      · exact ⟨_, Nat.mod_lt _ (by norm_num), rfl⟩
      · exact ⟨_, Nat.mod_lt _ (by norm_num), rfl⟩
      · exact ⟨_, Nat.mod_lt _ (by norm_num), rfl⟩
  | b0 :: b1 :: b2 :: rest => by
    obtain ⟨core, p, hs, hc, hp, -⟩ := encode_shape rest
    refine ⟨b64char ((b0 * 65536 + b1 * 256 + b2) / 262144 % 64) ::
        b64char ((b0 * 65536 + b1 * 256 + b2) / 4096 % 64) ::
        b64char ((b0 * 65536 + b1 * 256 + b2) / 64 % 64) ::
        b64char ((b0 * 65536 + b1 * 256 + b2) % 64) :: core, p, ?_, ?_, hp, fun _ => by simp⟩
    · simp only [base64_encode, hs, List.cons_append]
    · intro c hcm
      simp only [List.mem_cons] at hcm
      rcases hcm with rfl | rfl | rfl | rfl | hcm
      · exact ⟨_, Nat.mod_lt _ (by norm_num), rfl⟩
      · exact ⟨_, Nat.mod_lt _ (by norm_num), rfl⟩
      · exact ⟨_, Nat.mod_lt _ (by norm_num), rfl⟩
      · exact ⟨_, Nat.mod_lt _ (by norm_num), rfl⟩
      · exact hc c hcm

theorem takeWhile_rep (p : Nat) (l : List Char) (hl : ∀ c ∈ l, c ≠ '=') :
    (List.replicate p '=' ++ l).takeWhile (fun c => c == '=') = List.replicate p '=' := by
  induction p with
  | zero =>
    simp only [List.replicate, List.nil_append]
    cases l with
    | nil => rfl
    | cons c t =>
      have hcb : (c == '=') = false :=
        beq_eq_false_iff_ne.mpr (hl c (List.mem_cons_self c t))
      simp [List.takeWhile_cons, hcb]
  | succ n ih =>
    simp only [List.replicate_succ, List.cons_append, List.takeWhile_cons]
    simp [ih]

theorem base64_roundtrip (b : List Nat) (hb : ∀ x ∈ b, x < 256) :
    base64_decode (base64_encode b) = .ok b := by
  by_cases hbe : b = []
  · subst hbe
    rfl
  obtain ⟨core, p, hsplit, hcore, hp2, hne⟩ := encode_shape b
  have hcorene : core ≠ [] := hne hbe
  have hceq : ∀ c ∈ core, c ≠ '=' := by
    intro c hc
    obtain ⟨k, hk, rfl⟩ := hcore c hc
    exact b64_ne_eq k hk
  have hnws : ∀ c ∈ base64_encode b, (!(isAsciiWhitespace c)) = true := by
    intro c hc
    rw [hsplit] at hc
    rcases List.mem_append.mp hc with hc | hc
    · obtain ⟨k, hk, rfl⟩ := hcore c hc
      simp [b64_not_ws k hk]
    · rw [List.eq_of_mem_replicate hc]
      rfl
  have hfilter : (base64_encode b).filter (fun c => !(isAsciiWhitespace c)) = base64_encode b :=
    List.filter_eq_self.mpr hnws
  have hlen4 : (base64_encode b).length % 4 = 0 := encode_length b
  have hencne : base64_encode b ≠ [] := by
    rw [hsplit]
    intro hz
    exact hcorene (List.append_eq_nil.mp hz).1
  have hrev : (base64_encode b).reverse = List.replicate p '=' ++ core.reverse := by
    rw [hsplit, List.reverse_append, List.reverse_replicate]
  have hpad : ((base64_encode b).reverse.takeWhile (fun c => c == '=')).length = p := by
    rw [hrev, takeWhile_rep p core.reverse (fun c hc => hceq c (List.mem_reverse.mp hc))]
    exact List.length_replicate p '='
  have hlen : (base64_encode b).length = core.length + p := by
    rw [hsplit]
    simp
  have htake : (base64_encode b).take ((base64_encode b).length - p) = core := by
    rw [hlen, Nat.add_sub_cancel, hsplit, List.take_left]
  have hnotin : '=' ∉ (base64_encode b).take ((base64_encode b).length - p) := by
    rw [htake]
    intro hm
    exact hceq '=' hm rfl
  simp only [base64_decode, hfilter]
  rw [if_neg hencne, if_neg (by simp [hlen4]), hpad, if_neg (by omega), if_neg hnotin]
  exact decodeChunks_encode 0 b hb

/-- C9: the claim as stated is false in one clause.  `"AAAA "` has
length 5, which is not a multiple of 4, yet `base64_decode` succeeds
(returning `[0, 0, 0]`) because ASCII whitespace is filtered out before
the length check. -/
theorem base64_invalidLength_cex :
    "AAAA ".toList.length % 4 = 1 ∧ base64_decode "AAAA ".toList = .ok [0, 0, 0] := by
  constructor
  · rfl
  · rfl

/-- C9 (amended): for every byte sequence `b`,
`base64_decode (base64_encode b)` succeeds and returns `b`;
`base64_encode` maps `""`, `"Glados"`, `"Chell"` to `""`, `"R2xhZG9z"`,
`"Q2hlbGw="`; decoding fails with `InvalidLength` *exactly when* the
input's length after removing ASCII whitespace is not a multiple of 4
(for whitespace-free inputs this is the original claim; with whitespace
the cleaned length is the one checked, e.g. `"AAAA "` of length 5
decodes successfully); and decoding `"A==B"` fails with
`InvalidPadding`. -/
theorem base64_spec :
    (∀ b : List Nat, (∀ x ∈ b, x < 256) → base64_decode (base64_encode b) = .ok b) ∧
    (base64_encode [] = [] ∧
      base64_encode ("Glados".toList.map Char.toNat) = "R2xhZG9z".toList ∧
      base64_encode ("Chell".toList.map Char.toNat) = "Q2hlbGw=".toList) ∧
    (∀ s : List Char, base64_decode s = .error .InvalidLength ↔
      (s.filter (fun c => !(isAsciiWhitespace c))).length % 4 ≠ 0) ∧
    base64_decode "A==B".toList = .error .InvalidPadding :=
  ⟨base64_roundtrip, ⟨rfl, rfl, rfl⟩, base64_decode_invalidLength_iff, rfl⟩

/-- Witness for the amended C9 theorem: the round trip at the concrete
bytes of `"Chell"` and the length failure at `"AAA"`. -/
theorem base64_spec_witness :
    base64_decode (base64_encode [67, 104, 101, 108, 108]) = .ok [67, 104, 101, 108, 108] ∧
    base64_decode "AAA".toList = .error .InvalidLength :=
  ⟨base64_spec.1 [67, 104, 101, 108, 108] (by decide),
    (base64_spec.2.2.1 "AAA".toList).mpr (by decide)⟩

/-- C4: the claim as stated is false.  Parsing `"https://"` — an empty
authority segment — succeeds with an empty host and no path instead of
failing with `MissingHost`, and so does `"https:///"` (the early-return
branches for a rest with no `/`, or with nothing after the first `/`,
skip the empty-host check). -/
theorem url_parse_errors_cex :
    Url.fromStr "https://".toList = .ok ⟨.HTTPS, [], none⟩ ∧
    Url.fromStr "https:///".toList = .ok ⟨.HTTPS, [], none⟩ := by
  constructor <;> rfl

/-- C4 (amended): parsing fails with `MissingScheme` exactly when no
`"://"` occurs in the input; it fails with `InvalidScheme` when the part
before the first `"://"` is neither `"http"` nor `"https"`; and it fails
with `MissingHost` exactly when the scheme is valid, the authority
segment (between `"://"` and the first `"/"`) is empty, and that first
`"/"` is followed by at least one character — `"https://"` and
`"https:///"` instead parse successfully to an empty host with no
path. -/
theorem url_parse_errors_amended :
    (∀ s : List Char, Url.fromStr s = .error .MissingScheme ↔
      ∀ l r : List Char, s ≠ l ++ ("://".toList ++ r)) ∧
    (∀ s sch rest : List Char, splitOnce "://".toList s = some (sch, rest) →
      sch ≠ "http".toList → sch ≠ "https".toList →
      Url.fromStr s = .error .InvalidScheme) ∧
    (∀ s : List Char, Url.fromStr s = .error .MissingHost ↔
      ∃ sch rest : List Char, splitOnce "://".toList s = some (sch, rest) ∧
        (sch = "http".toList ∨ sch = "https".toList) ∧
        ∃ p : List Char, splitOnce ['/'] rest = some ([], p) ∧ p ≠ []) ∧
    (Url.fromStr "https://".toList = .ok ⟨.HTTPS, [], none⟩ ∧
      Url.fromStr "https:///".toList = .ok ⟨.HTTPS, [], none⟩) := by
  refine ⟨?_, fromStr_invalidScheme, fromStr_eq_missingHost, by constructor <;> rfl⟩
  intro s
  rw [fromStr_eq_missingScheme s, splitOnce_eq_none_iff]

/-- Witness for the amended C4 theorem: the `InvalidScheme` clause at
the concrete input `"ftp://x"`. -/
theorem url_parse_errors_amended_witness :
    Url.fromStr "ftp://x".toList = .error .InvalidScheme :=
  url_parse_errors_amended.2.1 "ftp://x".toList "ftp".toList "x".toList
    (by decide) (by decide) (by decide)

/-- C5: the claim as stated is false.  The protocol-relative reference
`"//other.com/x"` does not fail with `UnexpectedFormat`: it starts with
`'/'`, so the absolute-path branch accepts it, strips the leading
slashes, and resolves it onto the base host as the path
`"other.com/x"`. -/
theorem url_resolve_cex :
    Url.newWithBase ⟨.HTTPS, "example.com".toList, none⟩ "//other.com/x".toList =
      .ok ⟨.HTTPS, "example.com".toList, some "other.com/x".toList⟩ := by
  rfl

/-- C5 (amended): a reference starting with `"http://"` or `"https://"`
is parsed standalone; on a successful parse the result is returned when
its scheme and host equal the base's and `DifferentSchemeOrHost` is
returned otherwise, while a parse error propagates as that error.  A
reference starting with `'/'` — including protocol-relative references
such as `"//other.com/x"` — resolves to the base's scheme and host with
the reference minus all leading slashes as path (`"/"` alone giving the
absent path).  Only a reference starting with neither `'/'` nor an http
scheme prefix (relative paths, `mailto:` etc.) fails with
`UnexpectedFormat`. -/
theorem url_resolve_amended :
    (∀ (b : Url) (s : List Char) (u : Url),
      (("http://".toList).isPrefixOf s ∨ ("https://".toList).isPrefixOf s) →
      Url.fromStr s = .ok u →
      (((u.scheme = b.scheme ∧ u.host = b.host) → Url.newWithBase b s = .ok u) ∧
        ((u.scheme ≠ b.scheme ∨ u.host ≠ b.host) →
          Url.newWithBase b s = .error .DifferentSchemeOrHost))) ∧
    (∀ (b : Url) (s : List Char) (e : UrlError),
      (("http://".toList).isPrefixOf s ∨ ("https://".toList).isPrefixOf s) →
      Url.fromStr s = .error e → Url.newWithBase b s = .error e) ∧
    (∀ b : Url, Url.newWithBase b ['/'] = .ok (Url.new b.scheme b.host none)) ∧
    (∀ (b : Url) (s : List Char), (['/']).isPrefixOf s → s ≠ ['/'] →
      Url.newWithBase b s =
        .ok (Url.new b.scheme b.host (some (s.dropWhile (fun c => c == '/'))))) ∧
    (∀ (b : Url) (s : List Char),
      ¬(("http://".toList).isPrefixOf s ∨ ("https://".toList).isPrefixOf s) →
      ¬(['/']).isPrefixOf s → Url.newWithBase b s = .error .UnexpectedFormat) := by
  refine ⟨?_, ?_, ?_, ?_, newWithBase_eq_other⟩
  · intro b s u hpre hfs
    constructor
    · rintro ⟨he1, he2⟩
      rw [newWithBase_eq_pre b s hpre, hfs]
      simp only []
      rw [if_neg]
      rintro (hc | hc)
      · exact hc he1
      · exact hc he2
    · intro hne
      rw [newWithBase_eq_pre b s hpre, hfs]
      simp only []
      rw [if_pos hne]
  · intro b s e hpre hfs
    rw [newWithBase_eq_pre b s hpre, hfs]
  · intro b
    rw [newWithBase_eq_slash b ['/'] (slashPre_not_httpPre ['/'] (by decide)) (by decide)]
    simp
  · intro b s hs hne
    rw [newWithBase_eq_slash b s (slashPre_not_httpPre s hs) hs, if_neg hne]

/-- Witness for the amended C5 theorem at concrete references against
the base `https://example.com`. -/
theorem url_resolve_amended_witness :
    Url.newWithBase ⟨.HTTPS, "example.com".toList, none⟩ "https://example.com/x".toList =
      .ok ⟨.HTTPS, "example.com".toList, some ['x']⟩ ∧
    Url.newWithBase ⟨.HTTPS, "example.com".toList, none⟩ "https://other.com/x".toList =
      .error .DifferentSchemeOrHost ∧
    Url.newWithBase ⟨.HTTPS, "example.com".toList, none⟩ "/foo".toList =
      .ok (Url.new UrlScheme.HTTPS "example.com".toList (some "foo".toList)) ∧
    Url.newWithBase ⟨.HTTPS, "example.com".toList, none⟩ "mailto:x".toList =
      .error .UnexpectedFormat :=
  ⟨(url_resolve_amended.1 ⟨.HTTPS, "example.com".toList, none⟩
        "https://example.com/x".toList ⟨.HTTPS, "example.com".toList, some ['x']⟩
        (by decide) (by rfl)).1 ⟨rfl, rfl⟩,
    (url_resolve_amended.1 ⟨.HTTPS, "example.com".toList, none⟩
        "https://other.com/x".toList ⟨.HTTPS, "other.com".toList, some ['x']⟩
        (by decide) (by rfl)).2 (Or.inr (by decide)),
    url_resolve_amended.2.2.2.1 ⟨.HTTPS, "example.com".toList, none⟩
      "/foo".toList (by decide) (by decide),
    url_resolve_amended.2.2.2.2 ⟨.HTTPS, "example.com".toList, none⟩
      "mailto:x".toList (by decide) (by decide)⟩

/-- C6: the claim as stated is false.  Resolving the absolute-path
reference `"/foo/bar/"` (one of the claim's own examples) stores the
path verbatim as `"foo/bar/"` — with its trailing slash, hence not
canonical — because the absolute-path branch of `new_with_base` performs
no fragment or trailing-slash stripping. -/
theorem url_canonical_cex :
    Url.newWithBase ⟨.HTTPS, "example.com".toList, none⟩ "/foo/bar/".toList =
      .ok ⟨.HTTPS, "example.com".toList, some "foo/bar/".toList⟩ ∧
    ¬canonicalPath (some "foo/bar/".toList) := by
  constructor
  · rfl
  · decide

/-- C6 (amended): every Url produced by `from_str` is canonical (its
path, when present, is nonempty, contains no `'#'` and has no trailing
`'/'`), and so is every Url produced by `new_with_base` when the
reference carries an explicit `http(s)://` scheme (that branch delegates
to `from_str`) or is exactly `"/"`; but the absolute-path branch stores
the reference minus leading slashes verbatim, so references such as
`"/foo/bar/"` or `"/foo#frag"` yield non-canonical paths. -/
theorem url_canonical_amended :
    (∀ (s : List Char) (u : Url), Url.fromStr s = .ok u → canonicalPath u.path) ∧
    (∀ (b : Url) (s : List Char) (u : Url),
      (("http://".toList).isPrefixOf s ∨ ("https://".toList).isPrefixOf s) →
      Url.newWithBase b s = .ok u → canonicalPath u.path) ∧
    (∀ b : Url, (Url.new b.scheme b.host none).path = none ∧
      Url.newWithBase b ['/'] = .ok (Url.new b.scheme b.host none)) := by
  refine ⟨fromStr_ok_canonical, ?_, ?_⟩
  · intro b s u hpre h
    rw [newWithBase_eq_pre b s hpre] at h
    cases hfs : Url.fromStr s with
    | error e =>
      rw [hfs] at h
      simp at h
    | ok url =>
      rw [hfs] at h
      simp only [] at h
      split_ifs at h with hc
      simp only [Except.ok.injEq] at h
      rw [← h]
      exact fromStr_ok_canonical s url hfs
  · intro b
    refine ⟨rfl, ?_⟩
    rw [newWithBase_eq_slash b ['/'] (slashPre_not_httpPre ['/'] (by decide)) (by decide)]
    simp

/-- Witness for the amended C6 theorem: parsing
`"https://example.com/a/#f"` yields the canonical path `"a"`. -/
theorem url_canonical_amended_witness :
    canonicalPath (Url.path ⟨.HTTPS, "example.com".toList, some ['a']⟩) :=
  url_canonical_amended.1 "https://example.com/a/#f".toList
    ⟨.HTTPS, "example.com".toList, some ['a']⟩ (by rfl)

/-- Witness for C10 on the concrete log `[Pending a, Pending a]` with
seed URL `http://b`. -/
theorem journal_duplicate_pending_witness :
    (Journal.load_history [.Pending ⟨.HTTP, ['a'], none⟩,
        .Pending ⟨.HTTP, ['a'], none⟩]).pending.count ⟨.HTTP, ['a'], none⟩ = 2 ∧
    (Queue.drainN
        (Queue.new_from_history ⟨.HTTP, ['b'], none⟩
          (Journal.load_history [.Pending ⟨.HTTP, ['a'], none⟩,
            .Pending ⟨.HTTP, ['a'], none⟩])).pending.length
        (Queue.new_from_history ⟨.HTTP, ['b'], none⟩
          (Journal.load_history [.Pending ⟨.HTTP, ['a'], none⟩,
            .Pending ⟨.HTTP, ['a'], none⟩]))).count ⟨.HTTP, ['a'], none⟩ = 2 :=
  journal_duplicate_pending
    [.Pending ⟨.HTTP, ['a'], none⟩, .Pending ⟨.HTTP, ['a'], none⟩]
    ⟨.HTTP, ['a'], none⟩ ⟨.HTTP, ['b'], none⟩ (by decide) (by decide)

end Yoink
